import Mathlib

/-!
Shallow embedding of `fifo_inventory.py` (class `FIFOInventory`) and the
quantity guard of `interactive_inventory.py` (`InteractiveInventoryManager.sell_items`).

Modelling conventions:
* Python `int` becomes `Int`; Python `float` prices become `Rat` (all the
  arithmetic the program performs on them is `+`, `-`, `*`, `/`, exact on the
  rationals).
* The `deque` `self.inventory` becomes a `List InventoryBatch` whose head is the
  front of the deque (`popleft` = head removal, `appendleft` = cons,
  `append` = snoc).
* `datetime` timestamps are carried by no claim and are dropped from the record
  types; every other field of `InventoryBatch` and of the sale-record dict is
  kept with its source name.
* `print` diagnostics are side effects with no state; the one observable datum
  they carry (the shortfall amount in the "insufficient stock" warning) is
  returned explicitly in `SellResult.shortfall`.
-/

/-- `InventoryBatch` of `fifo_inventory.py` (without the `purchase_date`
timestamp, which no claim mentions). -/
structure InventoryBatch where
  product_name : String
  quantity : Int
  buy_price : Rat
  sell_price : Rat
  batch_id : String
deriving Repr, DecidableEq

/-- The sale-record dict built in `FIFOInventory.sell_items` (without
`sale_date`). -/
structure SaleRecord where
  batch_id : String
  product_name : String
  quantity_sold : Int
  buy_price : Rat
  sell_price : Rat
  profit_per_unit : Rat
  total_profit : Rat
deriving Repr, DecidableEq

/-- The mutable state of a `FIFOInventory` object: the batch deque (front =
list head), the append-only sales log, and the batch-id counter. -/
structure FIFOInventory where
  inventory : List InventoryBatch
  sales_history : List SaleRecord
  batch_counter : Nat
deriving Repr, DecidableEq

/-- `FIFOInventory.__init__`. -/
def FIFOInventory.init : FIFOInventory :=
  { inventory := [], sales_history := [], batch_counter := 0 }

/-- Python's `f"{n:04d}"`: decimal digits of `n` left-padded with `'0'` to a
minimum width of 4. -/
def zeroPad4 (n : Nat) : String :=
  let s := toString n
  String.mk (List.replicate (4 - s.length) '0') ++ s

/-- The batch object constructed inside `FIFOInventory.add_batch`. -/
def mkBatch (pname : String) (qty : Int) (buy sell : Rat) (bid : String) :
    InventoryBatch :=
  { product_name := pname, quantity := qty, buy_price := buy,
    sell_price := sell, batch_id := bid }

/-- `FIFOInventory.add_batch`: bump the counter, mint the id
`f"BATCH-{counter:04d}"`, append the batch at the END of the deque, return the
id.  No validation of any argument. -/
def addBatch (st : FIFOInventory) (pname : String) (qty : Int)
    (buy sell : Rat) : String × FIFOInventory :=
  let counter := st.batch_counter + 1
  let bid := "BATCH-" ++ zeroPad4 counter
  let batch := mkBatch pname qty buy sell bid
  (bid, { st with inventory := st.inventory ++ [batch],
                  batch_counter := counter })

/-- The sale-record dict for selling `sold` units out of `batch`. -/
def mkSale (batch : InventoryBatch) (sold : Int) : SaleRecord :=
  { batch_id := batch.batch_id
    product_name := batch.product_name
    quantity_sold := sold
    buy_price := batch.buy_price
    sell_price := batch.sell_price
    profit_per_unit := batch.sell_price - batch.buy_price
    total_profit := sold * (batch.sell_price - batch.buy_price) }

/-- State of the `while` loop of `FIFOInventory.sell_items` when it exits:
the deque as the loop leaves it, the `temp_batches` list of set-aside
non-matching batches, the `sales` accumulator, and `remaining_to_sell`. -/
structure LoopState where
  inv : List InventoryBatch
  temp : List InventoryBatch
  sales : List SaleRecord
  remaining : Int
deriving Repr, DecidableEq

/-- The `while self.inventory and remaining_to_sell > 0` loop of
`FIFOInventory.sell_items`.  Arguments mirror the loop state. -/
def sellLoop (pname : String) :
    List InventoryBatch → Int → List InventoryBatch → List SaleRecord →
    LoopState
  | [], remaining, temp, sales => ⟨[], temp, sales, remaining⟩
  | batch :: rest, remaining, temp, sales =>
    if remaining > 0 then
      if batch.product_name ≠ pname then
        -- not the product we want: save it for later, continue
        sellLoop pname rest remaining (temp ++ [batch]) sales
      else
        let sold := min batch.quantity remaining
        let sale := mkSale batch sold
        let remaining' := remaining - sold
        let batch' := { batch with quantity := batch.quantity - sold }
        if batch'.quantity > 0 then
          -- items left in this batch: put it back at the front, break
          ⟨batch' :: rest, temp, sales ++ [sale], remaining'⟩
        else
          sellLoop pname rest remaining' temp (sales ++ [sale])
    else ⟨batch :: rest, temp, sales, remaining⟩

/-- Result of one `sell_items` call: the returned list of sale records, the
final value of `remaining_to_sell` (the warning `Could not sell {n} items` is
printed iff it is positive), and the post-call object state. -/
structure SellResult where
  sales : List SaleRecord
  shortfall : Int
  state : FIFOInventory
deriving Repr, DecidableEq

/-- `FIFOInventory.sell_items`: run the scan loop, then push the set-aside
batches back onto the front in their original relative order
(`for batch in reversed(temp_batches): self.inventory.appendleft(batch)`),
and append the new records to `sales_history` (the source appends them one by
one inside the loop, in the same order). -/
def sellItems (st : FIFOInventory) (pname : String) (qty : Int) : SellResult :=
  let r := sellLoop pname st.inventory qty [] []
  { sales := r.sales
    shortfall := r.remaining
    state := { st with inventory := r.temp ++ r.inv,
                       sales_history := st.sales_history ++ r.sales } }

/-- Outcome of the interactive wrapper `InteractiveInventoryManager.sell_items`
after the product name and quantity have been read: the guard
`if quantity <= 0` prints `Quantity must be positive` and returns without
touching the core (`invalidQuantity`); otherwise the core call runs. -/
inductive SellOutcome where
  | invalidQuantity
  | completed (sales : List SaleRecord)
deriving Repr, DecidableEq

/-- `InteractiveInventoryManager.sell_items`, from the point where
`product_name` and `quantity` have been parsed: reject a non-positive
quantity before calling the core, else delegate to `FIFOInventory.sell_items`. -/
def interactiveSellItems (st : FIFOInventory) (pname : String) (qty : Int) :
    SellOutcome × FIFOInventory :=
  if qty ≤ 0 then (SellOutcome.invalidQuantity, st)
  else
    let r := sellItems st pname qty
    (SellOutcome.completed r.sales, r.state)

/-- `FIFOInventory.get_sales_summary` (the dict fields, in source order;
Python's `sum` over a generator is a left fold starting at `0`). -/
structure SalesSummary where
  total_items_sold : Int
  total_revenue : Rat
  total_cost : Rat
  total_profit : Rat
  profit_margin : Rat
  sales_count : Nat
deriving Repr, DecidableEq

/-- `FIFOInventory.get_sales_summary`. -/
def getSalesSummary (st : FIFOInventory) : SalesSummary :=
  let total_revenue :=
    st.sales_history.foldl
      (fun acc s => acc + (s.quantity_sold : Rat) * s.sell_price) 0
  let total_cost :=
    st.sales_history.foldl
      (fun acc s => acc + (s.quantity_sold : Rat) * s.buy_price) 0
  let total_profit := total_revenue - total_cost
  let total_items_sold :=
    st.sales_history.foldl (fun acc s => acc + s.quantity_sold) 0
  { total_items_sold := total_items_sold
    total_revenue := total_revenue
    total_cost := total_cost
    total_profit := total_profit
    profit_margin :=
      if total_revenue > 0 then total_profit / total_revenue * 100 else 0
    sales_count := st.sales_history.length }

/-- One core-mutating call, for reachability statements. -/
inductive Op where
  | add (pname : String) (qty : Int) (buy sell : Rat)
  | sell (pname : String) (qty : Int)
deriving Repr, DecidableEq

/-- Apply one call to the ledger state. -/
def applyOp (st : FIFOInventory) : Op → FIFOInventory
  | Op.add n q b s => (addBatch st n q b s).2
  | Op.sell n q => (sellItems st n q).state

/-- Run a sequence of calls from a given state. -/
def runFrom (st : FIFOInventory) : List Op → FIFOInventory
  | [] => st
  | op :: ops => runFrom (applyOp st op) ops

/-- Run a sequence of calls on a fresh ledger. -/
def runOps (ops : List Op) : FIFOInventory := runFrom FIFOInventory.init ops

/-- The batches created by the `add` calls of a trace, in creation order,
with the field values `add_batch` stores for them. -/
def arrivalsFrom (st : FIFOInventory) : List Op → List InventoryBatch
  | [] => []
  | Op.add n q b s :: ops =>
      mkBatch n q b s ("BATCH-" ++ zeroPad4 (st.batch_counter + 1)) ::
        arrivalsFrom (applyOp st (Op.add n q b s)) ops
  | Op.sell n q :: ops => arrivalsFrom (applyOp st (Op.sell n q)) ops

/-- The identity of a batch: every field except the mutable `quantity`. -/
structure BatchCore where
  product_name : String
  buy_price : Rat
  sell_price : Rat
  batch_id : String
deriving Repr, DecidableEq

/-- Strip the mutable quantity off a batch. -/
def InventoryBatch.core (b : InventoryBatch) : BatchCore :=
  { product_name := b.product_name, buy_price := b.buy_price,
    sell_price := b.sell_price, batch_id := b.batch_id }

/-- The batches created on a fresh ledger by a trace, in creation order. -/
def arrivals (ops : List Op) : List InventoryBatch :=
  arrivalsFrom FIFOInventory.init ops

/-- Total quantity held in ledger batches of product `P`. -/
def invQty (P : String) : List InventoryBatch → Int
  | [] => 0
  | b :: l => (if b.product_name = P then b.quantity else 0) + invQty P l

/-- Total `quantity_sold` over sale records of product `P`. -/
def soldQty (P : String) : List SaleRecord → Int
  | [] => 0
  | s :: l => (if s.product_name = P then s.quantity_sold else 0) + soldQty P l

/-- Total quantity ever passed to `add_batch` for product `P` in a trace. -/
def addedQty (P : String) : List Op → Int
  | [] => 0
  | Op.add n q _ _ :: ops => (if n = P then q else 0) + addedQty P ops
  | Op.sell _ _ :: ops => addedQty P ops

/-- The preconditions the spec states for `add_batch` (positive quantity and
prices); `sell` calls are unrestricted. -/
def validOp : Op → Prop
  | Op.add _ q b s => 0 < q ∧ 0 < b ∧ 0 < s
  | Op.sell _ _ => True

/-- A trace whose `add` calls all satisfy the spec's `add_batch`
preconditions. -/
def ValidOps (ops : List Op) : Prop := ∀ op ∈ ops, validOp op

/-- Bool test: does this batch belong to a product other than `pname`?
(the source's `batch.product_name != product_name` check). -/
def otherProduct (pname : String) (b : InventoryBatch) : Bool :=
  b.product_name != pname

/-- The ledger of the spec's worked example, after its two `add_batch`
calls. -/
def exampleLedger : FIFOInventory :=
  (addBatch (addBatch FIFOInventory.init "X" 5 100 150).2 "X" 5 120 170).2

/-! ### Unfolding lemmas for the scan loop -/

theorem sellLoop_nil (pname : String) (r : Int) (temp : List InventoryBatch)
    (sales : List SaleRecord) :
    sellLoop pname [] r temp sales = ⟨[], temp, sales, r⟩ := rfl

theorem sellLoop_cons_nonpos (pname : String) (batch : InventoryBatch)
    (rest : List InventoryBatch) (r : Int) (temp : List InventoryBatch)
    (sales : List SaleRecord) (hr : ¬ r > 0) :
    sellLoop pname (batch :: rest) r temp sales = ⟨batch :: rest, temp, sales, r⟩ := by
  simp [sellLoop, hr]

theorem sellLoop_cons_nomatch (pname : String) (batch : InventoryBatch)
    (rest : List InventoryBatch) (r : Int) (temp : List InventoryBatch)
    (sales : List SaleRecord) (hr : r > 0) (hn : batch.product_name ≠ pname) :
    sellLoop pname (batch :: rest) r temp sales =
      sellLoop pname rest r (temp ++ [batch]) sales := by
  simp [sellLoop, hr, hn]

theorem sellLoop_cons_reinsert (pname : String) (batch : InventoryBatch)
    (rest : List InventoryBatch) (r : Int) (temp : List InventoryBatch)
    (sales : List SaleRecord) (hr : r > 0) (hn : batch.product_name = pname)
    (hq : batch.quantity - min batch.quantity r > 0) :
    sellLoop pname (batch :: rest) r temp sales =
      ⟨{ batch with quantity := batch.quantity - min batch.quantity r } :: rest,
        temp, sales ++ [mkSale batch (min batch.quantity r)],
        r - min batch.quantity r⟩ := by
  simp [sellLoop, hr, hn, hq]

theorem sellLoop_cons_full (pname : String) (batch : InventoryBatch)
    (rest : List InventoryBatch) (r : Int) (temp : List InventoryBatch)
    (sales : List SaleRecord) (hr : r > 0) (hn : batch.product_name = pname)
    (hq : ¬ batch.quantity - min batch.quantity r > 0) :
    sellLoop pname (batch :: rest) r temp sales =
      sellLoop pname rest (r - min batch.quantity r) temp
        (sales ++ [mkSale batch (min batch.quantity r)]) := by
  simp [sellLoop, hr, hn, hq]

/-! ### Additivity of the quantity measures -/

theorem invQty_append (P : String) (l₁ l₂ : List InventoryBatch) :
    invQty P (l₁ ++ l₂) = invQty P l₁ + invQty P l₂ := by
  induction l₁ with
  | nil => simp [invQty]
  | cons b l ih => simp only [List.cons_append, invQty, List.append_eq]; rw [ih]; omega

theorem soldQty_append (P : String) (l₁ l₂ : List SaleRecord) :
    soldQty P (l₁ ++ l₂) = soldQty P l₁ + soldQty P l₂ := by
  induction l₁ with
  | nil => simp [soldQty]
  | cons s l ih => simp only [List.cons_append, soldQty, List.append_eq]; rw [ih]; omega

theorem invQty_nonneg (P : String) (l : List InventoryBatch)
    (h : ∀ b ∈ l, 0 ≤ b.quantity) : 0 ≤ invQty P l := by
  induction l with
  | nil => simp [invQty]
  | cons b l ih =>
    have hb := h b (List.mem_cons_self b l)
    have hl := ih (fun x hx => h x (List.mem_cons_of_mem b hx))
    simp only [invQty]
    by_cases hp : b.product_name = P <;> simp [hp] <;> omega

/-! ### Order preservation: the scan loop only deletes batches (up to the
mutable quantity) -/

theorem sellLoop_core_sublist (pname : String) (inv : List InventoryBatch) :
    ∀ (r : Int) (temp : List InventoryBatch) (sales : List SaleRecord),
    List.Sublist
      (((sellLoop pname inv r temp sales).temp ++
          (sellLoop pname inv r temp sales).inv).map InventoryBatch.core)
      ((temp ++ inv).map InventoryBatch.core) := by
  induction inv with
  | nil =>
    intro r temp sales
    rw [sellLoop_nil]
  | cons batch rest ih =>
    intro r temp sales
    by_cases hr : r > 0
    · by_cases hn : batch.product_name = pname
      · by_cases hq : batch.quantity - min batch.quantity r > 0
        · rw [sellLoop_cons_reinsert pname batch rest r temp sales hr hn hq]
          have hcore : ({ batch with quantity := batch.quantity - min batch.quantity r } : InventoryBatch).core = batch.core := rfl
          simp only [List.map_append, List.map_cons, hcore]
          exact List.Sublist.refl _
        · rw [sellLoop_cons_full pname batch rest r temp sales hr hn hq]
          refine (ih _ _ _).trans ?_
          simp only [List.map_append, List.map_cons]
          exact List.Sublist.append_left (List.sublist_cons_self _ _) _
      · rw [sellLoop_cons_nomatch pname batch rest r temp sales hr hn]
        have h := ih r (temp ++ [batch]) sales
        simpa [List.append_assoc] using h
    · rw [sellLoop_cons_nonpos pname batch rest r temp sales hr]

/-- One `sell_items` call never reorders the surviving batches: the final
deque, viewed up to the mutable quantity, is a subsequence of the initial
deque. -/
theorem sellItems_core_sublist (st : FIFOInventory) (pname : String)
    (qty : Int) :
    List.Sublist ((sellItems st pname qty).state.inventory.map InventoryBatch.core)
      (st.inventory.map InventoryBatch.core) := by
  have h := sellLoop_core_sublist pname st.inventory qty [] []
  simpa [sellItems] using h

theorem runFrom_core_sublist (ops : List Op) :
    ∀ (st : FIFOInventory) (acc : List BatchCore),
    List.Sublist (st.inventory.map InventoryBatch.core) acc →
    List.Sublist ((runFrom st ops).inventory.map InventoryBatch.core)
      (acc ++ (arrivalsFrom st ops).map InventoryBatch.core) := by
  induction ops with
  | nil => intro st acc h; simpa [runFrom, arrivalsFrom] using h
  | cons op ops ih =>
    intro st acc h
    cases op with
    | add n q b s =>
      have hstep : (applyOp st (Op.add n q b s)).inventory.map InventoryBatch.core
          = st.inventory.map InventoryBatch.core ++
            [(mkBatch n q b s ("BATCH-" ++ zeroPad4 (st.batch_counter + 1))).core] := by
        simp [applyOp, addBatch, List.map_append]
      have h' : List.Sublist
          ((applyOp st (Op.add n q b s)).inventory.map InventoryBatch.core)
          (acc ++ [(mkBatch n q b s ("BATCH-" ++ zeroPad4 (st.batch_counter + 1))).core]) := by
        rw [hstep]; exact List.Sublist.append h (List.Sublist.refl _)
      have hrec := ih (applyOp st (Op.add n q b s))
        (acc ++ [(mkBatch n q b s ("BATCH-" ++ zeroPad4 (st.batch_counter + 1))).core]) h'
      simpa [runFrom, arrivalsFrom, List.append_assoc] using hrec
    | sell n q =>
      have h' : List.Sublist
          ((applyOp st (Op.sell n q)).inventory.map InventoryBatch.core) acc :=
        (sellItems_core_sublist st n q).trans h
      have hrec := ih (applyOp st (Op.sell n q)) acc h'
      simpa [runFrom, arrivalsFrom] using hrec

/-! ### Conservation of units through the scan loop -/

theorem sellLoop_conserve (pname P : String) (inv : List InventoryBatch) :
    ∀ (r : Int) (temp : List InventoryBatch) (sales : List SaleRecord),
    invQty P ((sellLoop pname inv r temp sales).temp ++
        (sellLoop pname inv r temp sales).inv)
      + soldQty P (sellLoop pname inv r temp sales).sales
    = invQty P (temp ++ inv) + soldQty P sales := by
  induction inv with
  | nil => intro r temp sales; rw [sellLoop_nil]
  | cons batch rest ih =>
    intro r temp sales
    by_cases hr : r > 0
    · by_cases hn : batch.product_name = pname
      · by_cases hq : batch.quantity - min batch.quantity r > 0
        · rw [sellLoop_cons_reinsert pname batch rest r temp sales hr hn hq]
          simp only [invQty_append, soldQty_append, invQty, soldQty, mkSale]
          by_cases hP : batch.product_name = P <;> simp [hP] <;> omega
        · rw [sellLoop_cons_full pname batch rest r temp sales hr hn hq, ih]
          have hsold : min batch.quantity r = batch.quantity := by omega
          simp only [invQty_append, soldQty_append, invQty, soldQty, mkSale, hsold]
          by_cases hP : batch.product_name = P <;> simp [hP] <;> omega
      · rw [sellLoop_cons_nomatch pname batch rest r temp sales hr hn, ih]
        simp only [invQty_append, invQty]
        omega
    · rw [sellLoop_cons_nonpos pname batch rest r temp sales hr]

/-! ### Non-interference: the scan loop fixes the other products -/

theorem sellLoop_filter_other (pname : String) (inv : List InventoryBatch) :
    ∀ (r : Int) (temp : List InventoryBatch) (sales : List SaleRecord),
    ((sellLoop pname inv r temp sales).temp ++
        (sellLoop pname inv r temp sales).inv).filter (otherProduct pname)
      = (temp ++ inv).filter (otherProduct pname) := by
  induction inv with
  | nil => intro r temp sales; rw [sellLoop_nil]
  | cons batch rest ih =>
    intro r temp sales
    by_cases hr : r > 0
    · by_cases hn : batch.product_name = pname
      · by_cases hq : batch.quantity - min batch.quantity r > 0
        · rw [sellLoop_cons_reinsert pname batch rest r temp sales hr hn hq]
          simp [List.filter_append, List.filter_cons, otherProduct, hn]
        · rw [sellLoop_cons_full pname batch rest r temp sales hr hn hq, ih]
          simp [List.filter_append, List.filter_cons, otherProduct, hn]
      · rw [sellLoop_cons_nomatch pname batch rest r temp sales hr hn, ih]
        simp [List.filter_append, List.filter_cons, otherProduct, hn,
          List.append_assoc]
    · rw [sellLoop_cons_nonpos pname batch rest r temp sales hr]

/-! ### Positivity of quantities through the scan loop -/

theorem sellLoop_pos (pname : String) (inv : List InventoryBatch) :
    ∀ (r : Int) (temp : List InventoryBatch) (sales : List SaleRecord),
    (∀ b ∈ temp ++ inv, 0 < b.quantity) →
    ∀ b ∈ (sellLoop pname inv r temp sales).temp ++
        (sellLoop pname inv r temp sales).inv, 0 < b.quantity := by
  induction inv with
  | nil => intro r temp sales h; rw [sellLoop_nil]; exact h
  | cons batch rest ih =>
    intro r temp sales h
    by_cases hr : r > 0
    · by_cases hn : batch.product_name = pname
      · by_cases hq : batch.quantity - min batch.quantity r > 0
        · rw [sellLoop_cons_reinsert pname batch rest r temp sales hr hn hq]
          intro b hb
          simp only [List.mem_append, List.mem_cons] at hb
          rcases hb with hb | hb | hb
          · exact h b (by simp [hb])
          · subst hb; exact hq
          · exact h b (by simp [hb])
        · rw [sellLoop_cons_full pname batch rest r temp sales hr hn hq]
          refine ih _ _ _ ?_
          intro b hb
          refine h b ?_
          simp only [List.mem_append, List.mem_cons] at hb ⊢
          tauto
      · rw [sellLoop_cons_nomatch pname batch rest r temp sales hr hn]
        refine ih _ _ _ ?_
        intro b hb
        refine h b ?_
        simp only [List.mem_append, List.mem_cons, List.mem_singleton] at hb ⊢
        tauto
    · rw [sellLoop_cons_nonpos pname batch rest r temp sales hr]
      exact h

/-! ### Full-sellout behaviour of the scan loop when demand exceeds stock -/

theorem sellLoop_sellall (pname : String) (inv : List InventoryBatch) :
    ∀ (r : Int) (temp : List InventoryBatch) (sales : List SaleRecord),
    (∀ b ∈ inv, 0 < b.quantity) → invQty pname inv < r →
    (sellLoop pname inv r temp sales).inv = [] ∧
    (sellLoop pname inv r temp sales).temp
      = temp ++ inv.filter (otherProduct pname) ∧
    (sellLoop pname inv r temp sales).remaining = r - invQty pname inv := by
  induction inv with
  | nil =>
    intro r temp sales _ _
    rw [sellLoop_nil]
    refine ⟨rfl, by simp, by simp [invQty]⟩
  | cons batch rest ih =>
    intro r temp sales hpos hlt
    have hrest : ∀ b ∈ rest, 0 < b.quantity :=
      fun b hb => hpos b (List.mem_cons_of_mem batch hb)
    have hrestnn : 0 ≤ invQty pname rest :=
      invQty_nonneg pname rest (fun b hb => le_of_lt (hrest b hb))
    have hr : r > 0 := by
      have := invQty_nonneg pname (batch :: rest)
        (fun b hb => le_of_lt (hpos b hb))
      omega
    by_cases hn : batch.product_name = pname
    · have hq0 : 0 < batch.quantity := hpos batch (List.mem_cons_self batch rest)
      have hcnt : invQty pname (batch :: rest)
          = batch.quantity + invQty pname rest := by
        simp [invQty, hn]
      have hsold : min batch.quantity r = batch.quantity := by omega
      have hq : ¬ batch.quantity - min batch.quantity r > 0 := by omega
      rw [sellLoop_cons_full pname batch rest r temp sales hr hn hq]
      have hlt' : invQty pname rest < r - min batch.quantity r := by omega
      obtain ⟨h1, h2, h3⟩ := ih _ temp (sales ++ [mkSale batch (min batch.quantity r)]) hrest hlt'
      refine ⟨h1, ?_, ?_⟩
      · rw [h2]
        simp [List.filter_cons, otherProduct, hn]
      · rw [h3]
        omega
    · have hcnt : invQty pname (batch :: rest) = invQty pname rest := by
        simp [invQty, hn]
      rw [sellLoop_cons_nomatch pname batch rest r temp sales hr hn]
      obtain ⟨h1, h2, h3⟩ := ih r (temp ++ [batch]) sales hrest (by omega)
      refine ⟨h1, ?_, ?_⟩
      · rw [h2]
        simp [List.filter_cons, otherProduct, hn, List.append_assoc]
      · rw [h3]
        omega

/-! ### The scan loop on inventories holding none of the product -/

theorem sellLoop_unknown (pname : String) (inv : List InventoryBatch) :
    ∀ (r : Int) (temp : List InventoryBatch) (sales : List SaleRecord),
    0 < r → (∀ b ∈ inv, b.product_name ≠ pname) →
    sellLoop pname inv r temp sales = ⟨[], temp ++ inv, sales, r⟩ := by
  induction inv with
  | nil => intro r temp sales _ _; rw [sellLoop_nil, List.append_nil]
  | cons batch rest ih =>
    intro r temp sales hr hno
    have hn : batch.product_name ≠ pname := hno batch (List.mem_cons_self batch rest)
    rw [sellLoop_cons_nomatch pname batch rest r temp sales hr hn,
      ih r (temp ++ [batch]) sales hr
        (fun b hb => hno b (List.mem_cons_of_mem batch hb))]
    simp [List.append_assoc]

/-! ### The scan loop on a non-positive request -/

theorem sellLoop_nonpos_qty (pname : String) (inv : List InventoryBatch)
    (r : Int) (temp : List InventoryBatch) (sales : List SaleRecord)
    (hr : r ≤ 0) :
    (sellLoop pname inv r temp sales).temp ++ (sellLoop pname inv r temp sales).inv
        = temp ++ inv ∧
    (sellLoop pname inv r temp sales).sales = sales ∧
    (sellLoop pname inv r temp sales).remaining = r := by
  cases inv with
  | nil => rw [sellLoop_nil]; exact ⟨rfl, rfl, rfl⟩
  | cons batch rest =>
    rw [sellLoop_cons_nonpos pname batch rest r temp sales (by omega)]
    exact ⟨rfl, rfl, rfl⟩

/-! ### Trace-level invariants -/

theorem runFrom_conserve (P : String) (ops : List Op) :
    ∀ st : FIFOInventory,
    soldQty P (runFrom st ops).sales_history + invQty P (runFrom st ops).inventory
      = soldQty P st.sales_history + invQty P st.inventory + addedQty P ops := by
  induction ops with
  | nil => intro st; simp [runFrom, addedQty]
  | cons op ops ih =>
    intro st
    cases op with
    | add n q b s =>
      rw [runFrom, ih (applyOp st (Op.add n q b s))]
      simp only [applyOp, addBatch, addedQty, invQty_append, invQty, mkBatch]
      by_cases hP : n = P <;> simp [hP] <;> omega
    | sell n q =>
      rw [runFrom, ih (applyOp st (Op.sell n q))]
      have hc := sellLoop_conserve n P st.inventory q [] []
      simp only [List.nil_append, soldQty] at hc
      simp only [applyOp, sellItems, addedQty, soldQty_append]
      omega

theorem runFrom_pos (ops : List Op) :
    ∀ st : FIFOInventory, ValidOps ops →
    (∀ b ∈ st.inventory, 0 < b.quantity) →
    ∀ b ∈ (runFrom st ops).inventory, 0 < b.quantity := by
  induction ops with
  | nil => intro st _ h; simpa [runFrom] using h
  | cons op ops ih =>
    intro st hv h
    have hv' : ValidOps ops := fun o ho => hv o (List.mem_cons_of_mem _ ho)
    rw [runFrom]
    cases op with
    | add n q b s =>
      refine ih _ hv' ?_
      have hq : 0 < q := (hv _ (List.mem_cons_self _ _)).1
      intro x hx
      simp only [applyOp, addBatch, List.mem_append, List.mem_singleton] at hx
      rcases hx with hx | hx
      · exact h x hx
      · subst hx; simpa [mkBatch] using hq
    | sell n q =>
      refine ih _ hv' ?_
      intro x hx
      refine sellLoop_pos n st.inventory q [] [] (by simpa using h) x ?_
      simpa [applyOp, sellItems] using hx

/-! ### Small helpers -/

theorem invQty_filter_other (P : String) (l : List InventoryBatch) :
    invQty P (l.filter (otherProduct P)) = 0 := by
  induction l with
  | nil => simp [invQty]
  | cons b l ih =>
    by_cases hb : b.product_name = P
    · simp [List.filter_cons, otherProduct, hb, ih]
    · simp [List.filter_cons, otherProduct, hb, invQty, ih]

theorem foldl_add_eq_sum {α M : Type} [AddCommMonoid M] (f : α → M) :
    ∀ (l : List α) (c : M),
    l.foldl (fun acc x => acc + f x) c = c + (l.map f).sum := by
  intro l
  induction l with
  | nil => intro c; simp
  | cons x l ih => intro c; simp [List.foldl_cons, ih, add_assoc]

instance validOp.decidable : (op : Op) → Decidable (validOp op)
  | Op.add _ q b s => inferInstanceAs (Decidable (0 < q ∧ 0 < b ∧ 0 < s))
  | Op.sell _ _ => inferInstanceAs (Decidable True)

/-! ### The claims -/

/-- C1: Order preservation across sell.  A `sell_items` call never reorders
the batches that survive it: the final deque, with each batch viewed through
its quantity-free identity `core` (name, prices, id), is a subsequence of the
initial deque.  Consequently, on every trace of `add_batch`/`sell_items`
calls, the ledger's batch sequence stays a subsequence of the arrival
sequence — any batch added before another and still present (fully consumed
or not, matching or not, in particular when both have positive quantity)
precedes it, exactly as at arrival. -/
theorem sell_preserves_batch_order :
    (∀ (st : FIFOInventory) (pname : String) (qty : Int),
      List.Sublist
        ((sellItems st pname qty).state.inventory.map InventoryBatch.core)
        (st.inventory.map InventoryBatch.core)) ∧
    (∀ ops : List Op,
      List.Sublist ((runOps ops).inventory.map InventoryBatch.core)
        ((arrivals ops).map InventoryBatch.core)) := by
  constructor
  · exact sellItems_core_sublist
  · intro ops
    have h := runFrom_core_sublist ops FIFOInventory.init []
      (by simp [FIFOInventory.init])
    simpa [runOps, arrivals] using h

/-- C2: Worked FIFO example.  From an empty ledger, after
`add_batch("X",5,100,150)` and `add_batch("X",5,120,170)`, the call
`sell_items("X",7)` returns exactly the two stated SaleRecords in order
(5 units at 100→150 with profit 250, then 2 units at 120→170 with profit
100), leaves exactly one batch of 3 units of X at 120→170, and the profits
of the returned records sum to 350. -/
theorem worked_fifo_example :
    (sellItems exampleLedger "X" 7).sales =
      [{ batch_id := "BATCH-0001", product_name := "X", quantity_sold := 5,
         buy_price := 100, sell_price := 150, profit_per_unit := 50,
         total_profit := 250 },
       { batch_id := "BATCH-0002", product_name := "X", quantity_sold := 2,
         buy_price := 120, sell_price := 170, profit_per_unit := 50,
         total_profit := 100 }] ∧
    (sellItems exampleLedger "X" 7).state.inventory =
      [{ product_name := "X", quantity := 3, buy_price := 120,
         sell_price := 170, batch_id := "BATCH-0002" }] ∧
    ((sellItems exampleLedger "X" 7).sales.map SaleRecord.total_profit).sum
      = 350 := by
  refine ⟨?_, ?_, ?_⟩
  · norm_num [sellItems, exampleLedger, addBatch, FIFOInventory.init, mkBatch,
      zeroPad4, sellLoop, mkSale]
    exact ⟨by decide, by decide⟩
  · norm_num [sellItems, exampleLedger, addBatch, FIFOInventory.init, mkBatch,
      zeroPad4, sellLoop, mkSale]
    exact by decide
  · norm_num [sellItems, exampleLedger, addBatch, FIFOInventory.init, mkBatch,
      zeroPad4, sellLoop, mkSale]

/-- C3: Conservation of units.  On every trace of `add_batch`/`sell_items`
calls and for every product name `P`, the units recorded as sold for `P`
plus the units of `P` still in the ledger equal the units ever added
for `P`. -/
theorem units_conserved (ops : List Op) (P : String) :
    soldQty P (runOps ops).sales_history + invQty P (runOps ops).inventory
      = addedQty P ops := by
  have h := runFrom_conserve P ops FIFOInventory.init
  simpa [runOps, FIFOInventory.init, soldQty, invQty] using h

/-- C4: Shortfall behaviour.  If every ledger batch has positive quantity
(the data-model invariant for reachable states) and `sell_items(P, n)` asks
for more than the total stock of `P`, then the call sells exactly the whole
stock of `P`, commits the records to the sales log, leaves no batch of `P`
in the ledger, and reports as shortfall precisely `n` minus the units sold;
the call returns normally (it is total), so the partial sale commits. -/
theorem sell_shortfall (st : FIFOInventory) (pname : String) (n : Int)
    (hpos : ∀ b ∈ st.inventory, 0 < b.quantity)
    (hgt : invQty pname st.inventory < n) :
    soldQty pname (sellItems st pname n).sales = invQty pname st.inventory ∧
    (sellItems st pname n).state.sales_history
      = st.sales_history ++ (sellItems st pname n).sales ∧
    (∀ b ∈ (sellItems st pname n).state.inventory, b.product_name ≠ pname) ∧
    (sellItems st pname n).shortfall
      = n - soldQty pname (sellItems st pname n).sales ∧
    0 < (sellItems st pname n).shortfall := by
  obtain ⟨h1, h2, h3⟩ := sellLoop_sellall pname st.inventory n [] [] hpos hgt
  have hcons := sellLoop_conserve pname pname st.inventory n [] []
  rw [h1, h2] at hcons
  simp only [List.nil_append, List.append_nil, soldQty,
    invQty_filter_other] at hcons
  have hsold : soldQty pname (sellItems st pname n).sales
      = invQty pname st.inventory := by
    show soldQty pname (sellLoop pname st.inventory n [] []).sales
      = invQty pname st.inventory
    omega
  refine ⟨hsold, rfl, ?_, ?_, ?_⟩
  · intro b hb
    have hb' : b ∈ (sellLoop pname st.inventory n [] []).temp ++
        (sellLoop pname st.inventory n [] []).inv := hb
    rw [h1, h2] at hb'
    simp only [List.nil_append, List.append_nil, List.mem_filter,
      otherProduct, bne_iff_ne, ne_eq] at hb'
    exact hb'.2
  · show (sellLoop pname st.inventory n [] []).remaining
      = n - soldQty pname (sellItems st pname n).sales
    rw [h3, hsold]
  · show 0 < (sellLoop pname st.inventory n [] []).remaining
    rw [h3]
    omega

/-- Witness for C4 at a concrete input: the example ledger holds 10 units of
X, and selling 11 sells exactly those 10. -/
theorem sell_shortfall_witness :
    (∀ b ∈ exampleLedger.inventory, 0 < b.quantity) ∧
    invQty "X" exampleLedger.inventory < 11 ∧
    soldQty "X" (sellItems exampleLedger "X" 11).sales
      = invQty "X" exampleLedger.inventory :=
  ⟨by decide, by decide,
    (sell_shortfall exampleLedger "X" 11 (by decide) (by decide)).1⟩

/-- C5: Non-positive sell quantity.  For `quantity_to_sell ≤ 0` the
interactive boundary rejects the request before the core is called (the
spec's `InvalidQuantityError` outcome) and the ledger is untouched; and even
the core `sell_items`, called directly, performs no scan: it returns no
sale records and leaves the whole ledger state (batch sequence, sales log,
counter) unchanged. -/
theorem nonpositive_sell_rejected (st : FIFOInventory) (pname : String)
    (qty : Int) (hq : qty ≤ 0) :
    interactiveSellItems st pname qty = (SellOutcome.invalidQuantity, st) ∧
    (sellItems st pname qty).sales = [] ∧
    (sellItems st pname qty).state = st := by
  obtain ⟨h1, h2, h3⟩ := sellLoop_nonpos_qty pname st.inventory qty [] [] hq
  refine ⟨by simp [interactiveSellItems, hq], h2, ?_⟩
  show { st with
      inventory := (sellLoop pname st.inventory qty [] []).temp ++
        (sellLoop pname st.inventory qty [] []).inv,
      sales_history := st.sales_history ++
        (sellLoop pname st.inventory qty [] []).sales } = st
  rw [h1, h2]
  simp

/-- Witness for C5 at a concrete input. -/
theorem nonpositive_sell_rejected_witness :
    (0 : Int) ≤ 0 ∧
    interactiveSellItems exampleLedger "X" 0
      = (SellOutcome.invalidQuantity, exampleLedger) :=
  ⟨le_refl 0,
    (nonpositive_sell_rejected exampleLedger "X" 0 (le_refl 0)).1⟩

/-- C6: Non-interference.  A `sell_items(X, n)` call leaves every batch of
any other product with the same quantity, the same presence and the same
relative order as before: the subsequence of non-X batches of the ledger is
exactly unchanged, however the X- and non-X batches are interleaved. -/
theorem sell_noninterference (st : FIFOInventory) (pname : String)
    (qty : Int) :
    (sellItems st pname qty).state.inventory.filter (otherProduct pname)
      = st.inventory.filter (otherProduct pname) := by
  have h := sellLoop_filter_other pname st.inventory qty [] []
  simpa [sellItems] using h

/-- C7: Unknown product.  If no ledger batch carries the requested product
name and the request is positive, `sell_items` returns no sale records,
raises nothing, appends nothing to the sales log, reports the full request
as shortfall, and leaves the state exactly as it was — the same observable
outcome as a known product with zero stock. -/
theorem sell_unknown_product (st : FIFOInventory) (pname : String) (n : Int)
    (hno : ∀ b ∈ st.inventory, b.product_name ≠ pname) (hn : 0 < n) :
    (sellItems st pname n).sales = [] ∧
    (sellItems st pname n).shortfall = n ∧
    (sellItems st pname n).state = st := by
  have h := sellLoop_unknown pname st.inventory n [] [] hn hno
  refine ⟨?_, ?_, ?_⟩
  · show (sellLoop pname st.inventory n [] []).sales = []
    rw [h]
  · show (sellLoop pname st.inventory n [] []).remaining = n
    rw [h]
  · show { st with
        inventory := (sellLoop pname st.inventory n [] []).temp ++
          (sellLoop pname st.inventory n [] []).inv,
        sales_history := st.sales_history ++
          (sellLoop pname st.inventory n [] []).sales } = st
    rw [h]
    simp

/-- Witness for C7 at a concrete input: the example ledger holds no "Z". -/
theorem sell_unknown_product_witness :
    (∀ b ∈ exampleLedger.inventory, b.product_name ≠ "Z") ∧ (0 : Int) < 4 ∧
    (sellItems exampleLedger "Z" 4).state = exampleLedger :=
  ⟨by decide, by decide,
    (sell_unknown_product exampleLedger "Z" 4 (by decide) (by decide)).2.2⟩

/-- C8: Batch data invariant.  On every trace whose `add_batch` calls
satisfy the stated preconditions (positive quantity and prices), every
ledger batch keeps a strictly positive quantity (a batch reaching 0 is
removed and never reinserted, and no quantity goes negative), and every
ledger batch's identity — name, `buy_price`, `sell_price`, id — is exactly
one of those fixed at creation, in creation order: prices are never
modified after creation. -/
theorem batch_invariant (ops : List Op) (hv : ValidOps ops) :
    (∀ b ∈ (runOps ops).inventory, 0 < b.quantity) ∧
    List.Sublist ((runOps ops).inventory.map InventoryBatch.core)
      ((arrivals ops).map InventoryBatch.core) := by
  constructor
  · have h := runFrom_pos ops FIFOInventory.init hv
      (by simp [FIFOInventory.init])
    simpa [runOps] using h
  · have h := runFrom_core_sublist ops FIFOInventory.init []
      (by simp [FIFOInventory.init])
    simpa [runOps, arrivals] using h

/-- Witness for C8 at a concrete valid trace. -/
theorem batch_invariant_witness :
    ValidOps [Op.add "X" 5 100 150, Op.add "Y" 2 10 20, Op.sell "X" 3] ∧
    ∀ b ∈ (runOps [Op.add "X" 5 100 150, Op.add "Y" 2 10 20,
        Op.sell "X" 3]).inventory, 0 < b.quantity := by
  have hv : ValidOps [Op.add "X" 5 100 150, Op.add "Y" 2 10 20,
      Op.sell "X" 3] := by
    intro op hop
    simp only [List.mem_cons, List.not_mem_nil, or_false] at hop
    rcases hop with rfl | rfl | rfl
    · exact ⟨by norm_num, by norm_num, by norm_num⟩
    · exact ⟨by norm_num, by norm_num, by norm_num⟩
    · trivial
  exact ⟨hv, (batch_invariant _ hv).1⟩

/-- C9: Sales summary correctness.  `get_sales_summary` (a pure function of
the state in this embedding — it mutates nothing) returns the stated folds
over the full sales log: units sold, revenue, cost, profit = revenue − cost,
record count, and a profit margin equal to profit / revenue × 100 exactly
when revenue is positive and to 0 when revenue is 0 (the division is
guarded). -/
theorem sales_summary_correct (st : FIFOInventory) :
    (getSalesSummary st).total_items_sold
      = (st.sales_history.map (fun s => s.quantity_sold)).sum ∧
    (getSalesSummary st).total_revenue
      = (st.sales_history.map
          (fun s => (s.quantity_sold : Rat) * s.sell_price)).sum ∧
    (getSalesSummary st).total_cost
      = (st.sales_history.map
          (fun s => (s.quantity_sold : Rat) * s.buy_price)).sum ∧
    (getSalesSummary st).total_profit
      = (getSalesSummary st).total_revenue - (getSalesSummary st).total_cost ∧
    (getSalesSummary st).sales_count = st.sales_history.length ∧
    (0 < (getSalesSummary st).total_revenue →
      (getSalesSummary st).profit_margin
        = (getSalesSummary st).total_profit
          / (getSalesSummary st).total_revenue * 100) ∧
    ((getSalesSummary st).total_revenue = 0 →
      (getSalesSummary st).profit_margin = 0) := by
  refine ⟨?_, ?_, ?_, rfl, rfl, ?_, ?_⟩
  · show st.sales_history.foldl (fun acc s => acc + s.quantity_sold) 0 = _
    rw [foldl_add_eq_sum (fun s => s.quantity_sold) st.sales_history 0,
      zero_add]
  · show st.sales_history.foldl
        (fun acc s => acc + (s.quantity_sold : Rat) * s.sell_price) 0 = _
    rw [foldl_add_eq_sum (fun s => (s.quantity_sold : Rat) * s.sell_price)
      st.sales_history 0, zero_add]
  · show st.sales_history.foldl
        (fun acc s => acc + (s.quantity_sold : Rat) * s.buy_price) 0 = _
    rw [foldl_add_eq_sum (fun s => (s.quantity_sold : Rat) * s.buy_price)
      st.sales_history 0, zero_add]
  · intro h
    exact if_pos h
  · intro h
    exact if_neg (fun hlt => ne_of_gt hlt h)

/-- Witness for C9: on the worked example's post-sale state the revenue is
positive and the margin is the guarded quotient. -/
theorem sales_summary_correct_witness :
    0 < (getSalesSummary (sellItems exampleLedger "X" 7).state).total_revenue ∧
    (getSalesSummary (sellItems exampleLedger "X" 7).state).profit_margin
      = (getSalesSummary (sellItems exampleLedger "X" 7).state).total_profit
        / (getSalesSummary (sellItems exampleLedger "X" 7).state).total_revenue
        * 100 := by
  have hrev :
      0 < (getSalesSummary (sellItems exampleLedger "X" 7).state).total_revenue := by
    norm_num [getSalesSummary, sellItems, exampleLedger, addBatch,
      FIFOInventory.init, mkBatch, zeroPad4, sellLoop, mkSale]
  exact ⟨hrev, (sales_summary_correct _).2.2.2.2.2.1 hrev⟩

/-- C10: `add_batch` is unconditional.  For every input, including
non-positive quantities or prices, it raises nothing (it is a total
function), increments the counter by exactly one, appends exactly one batch
carrying exactly the given field values to the END of the sequence, leaves
the sales log alone, and returns "BATCH-" followed by the zero-padded
counter (`zeroPad4` is Python's `%04d`: minimum-width-4 zero padding) — so
unvalidated input can put a zero- or negative-quantity batch in the
ledger. -/
theorem add_batch_unconditional (st : FIFOInventory) (pname : String)
    (qty : Int) (buy sell : Rat) :
    (addBatch st pname qty buy sell).2.batch_counter = st.batch_counter + 1 ∧
    (addBatch st pname qty buy sell).1
      = "BATCH-" ++ zeroPad4 (st.batch_counter + 1) ∧
    (addBatch st pname qty buy sell).2.inventory
      = st.inventory ++ [mkBatch pname qty buy sell
          ("BATCH-" ++ zeroPad4 (st.batch_counter + 1))] ∧
    (addBatch st pname qty buy sell).2.sales_history = st.sales_history :=
  ⟨rfl, rfl, rfl, rfl⟩
